import Mathlib

/-
Verification of the graph-X edge-centrality and downdating code.

The Python sources (scripts/Tools.py, scripts/LineGraph.py,
scripts/EdgeCentralityMeasures.py, scr/NetworkAnalysis.py) are shallowly
embedded.  Adjacency matrices become `Matrix (Fin n) (Fin n) α` over a
linear ordered field (`ℝ` for the analytic parts; concrete runs are
evaluated over `ℚ`, whose arithmetic agrees with `ℝ` on the rational
inputs involved).  `scipy.linalg.expm` and `scipy.linalg.expm_frechet`
are embedded by their defining power series as entrywise `tsum`s.
Numpy index bookkeeping (`flatten`, `triu_indices`, `nonzero`) is
embedded by explicit row-major index lists.
-/

open Matrix

/-- Embedding of `Tools.downdate_network`.  The Python code copies the
matrix, then: if the targeted entry is `< 1` it sets the entry (and, for
undirected graphs, the mirrored entry) to `0`; otherwise it decrements
the entry by `1` (and, for undirected graphs, also decrements the
mirrored entry, a second decrement of the same cell when the edge is a
self-loop). -/
def downdate_network {n : ℕ} {α : Type*} [LinearOrderedCommRing α]
    (adj_matrix : Matrix (Fin n) (Fin n) α) (edge : Fin n × Fin n) (directed : Bool) :
    Matrix (Fin n) (Fin n) α :=
  if adj_matrix edge.1 edge.2 < 1 then
    fun p q =>
      if (p, q) = edge ∨ (directed = false ∧ (p, q) = (edge.2, edge.1)) then 0
      else adj_matrix p q
  else
    if directed = true then
      fun p q => if (p, q) = edge then adj_matrix p q - 1 else adj_matrix p q
    else
      fun p q =>
        if (p, q) = (edge.2, edge.1) then
          (if (p, q) = edge then adj_matrix p q - 1 else adj_matrix p q) - 1
        else
          (if (p, q) = edge then adj_matrix p q - 1 else adj_matrix p q)

/-- Embedding of `Tools.update_network`: copy, increment the targeted
entry by `1`, and for undirected graphs also increment the mirrored
entry (again a double increment of one cell for a self-loop). -/
def update_network {n : ℕ} {α : Type*} [LinearOrderedCommRing α]
    (adj_matrix : Matrix (Fin n) (Fin n) α) (edge : Fin n × Fin n) (directed : Bool) :
    Matrix (Fin n) (Fin n) α :=
  if directed = true then
    fun p q => if (p, q) = edge then adj_matrix p q + 1 else adj_matrix p q
  else
    fun p q =>
      if (p, q) = (edge.2, edge.1) then
        (if (p, q) = edge then adj_matrix p q + 1 else adj_matrix p q) + 1
      else
        (if (p, q) = edge then adj_matrix p q + 1 else adj_matrix p q)

lemma update_network_apply {n : ℕ} {α : Type*} [LinearOrderedCommRing α]
    (A : Matrix (Fin n) (Fin n) α) (e : Fin n × Fin n) (d : Bool) (p q : Fin n) :
    update_network A e d p q =
      A p q + (if (p, q) = e then (1 : α) else 0) +
        (if d = false ∧ (p, q) = (e.2, e.1) then (1 : α) else 0) := by
  cases d <;> simp only [update_network] <;> split_ifs <;> simp_all

lemma downdate_network_apply_of_lt {n : ℕ} {α : Type*} [LinearOrderedCommRing α]
    {A : Matrix (Fin n) (Fin n) α} {e : Fin n × Fin n} (d : Bool)
    (h : A e.1 e.2 < 1) (p q : Fin n) :
    downdate_network A e d p q =
      if (p, q) = e ∨ (d = false ∧ (p, q) = (e.2, e.1)) then 0 else A p q := by
  simp only [downdate_network, if_pos h]

lemma downdate_network_apply_of_ge {n : ℕ} {α : Type*} [LinearOrderedCommRing α]
    {A : Matrix (Fin n) (Fin n) α} {e : Fin n × Fin n} (d : Bool)
    (h : ¬ A e.1 e.2 < 1) (p q : Fin n) :
    downdate_network A e d p q =
      A p q - (if (p, q) = e then (1 : α) else 0) -
        (if d = false ∧ (p, q) = (e.2, e.1) then (1 : α) else 0) := by
  cases d <;> simp only [downdate_network, if_neg h] <;> split_ifs <;> simp_all

/-- Claim C9: an edge whose weight `w` satisfies `0 < w < 1` is set to
exactly `0` by `downdate_network` (together with its mirrored entry in
the undirected case) rather than being decremented by `1`. -/
theorem downdate_removes_fractional_edge {n : ℕ}
    (A : Matrix (Fin n) (Fin n) ℝ) (e : Fin n × Fin n) (d : Bool)
    (_h0 : 0 < A e.1 e.2) (h1 : A e.1 e.2 < 1) :
    downdate_network A e d e.1 e.2 = 0 ∧
      (d = false → downdate_network A e d e.2 e.1 = 0) := by
  refine ⟨?_, fun hd => ?_⟩
  · rw [downdate_network_apply_of_lt d h1]
    simp
  · rw [downdate_network_apply_of_lt d h1]
    simp [hd]

theorem downdate_removes_fractional_edge_witness :
    downdate_network (fun _ _ => (1 / 2 : ℝ) : Matrix (Fin 1) (Fin 1) ℝ)
        ((0 : Fin 1), (0 : Fin 1)) false 0 0 = 0 :=
  (downdate_removes_fractional_edge _ _ _ (by norm_num) (by norm_num)).1

/-- Claim C10: `downdate_network` and `update_network` are pure:
every entry other than the targeted entry `(i, j)` (and its mirror
`(j, i)` in the undirected case) is returned unchanged. -/
theorem modify_network_frame {n : ℕ}
    (A : Matrix (Fin n) (Fin n) ℝ) (e : Fin n × Fin n) (d : Bool) (p q : Fin n)
    (h1 : (p, q) ≠ e) (h2 : d = false → (p, q) ≠ (e.2, e.1)) :
    downdate_network A e d p q = A p q ∧ update_network A e d p q = A p q := by
  have h2' : ¬ (d = false ∧ (p, q) = (e.2, e.1)) := fun h => h2 h.1 h.2
  constructor
  · by_cases h : A e.1 e.2 < 1
    · rw [downdate_network_apply_of_lt d h]
      rw [if_neg]
      push_neg
      exact ⟨h1, fun hd hm => h2' ⟨hd, hm⟩⟩
    · rw [downdate_network_apply_of_ge d h, if_neg h1, if_neg h2']
      ring
  · rw [update_network_apply, if_neg h1, if_neg h2']
    ring

theorem modify_network_frame_witness :
    downdate_network (fun _ _ => (5 : ℝ) : Matrix (Fin 2) (Fin 2) ℝ)
        ((0 : Fin 2), (1 : Fin 2)) false 0 0 =
      (fun _ _ => (5 : ℝ) : Matrix (Fin 2) (Fin 2) ℝ) 0 0 ∧
    update_network (fun _ _ => (5 : ℝ) : Matrix (Fin 2) (Fin 2) ℝ)
        ((0 : Fin 2), (1 : Fin 2)) false 0 0 =
      (fun _ _ => (5 : ℝ) : Matrix (Fin 2) (Fin 2) ℝ) 0 0 :=
  modify_network_frame _ _ _ _ _ (by decide) (fun _ => by decide)

/-- Claim C4 is false as stated: downdating an edge of weight `1/2` sets
it to `0`, and the subsequent update raises it to `1`, not `1/2`. -/
theorem downdate_update_not_inverse :
    update_network
        (downdate_network (fun _ _ => (1 / 2 : ℝ) : Matrix (Fin 2) (Fin 2) ℝ)
          ((0 : Fin 2), (1 : Fin 2)) false)
        ((0 : Fin 2), (1 : Fin 2)) false ≠
      (fun _ _ => (1 / 2 : ℝ) : Matrix (Fin 2) (Fin 2) ℝ) := by
  intro h
  have h01 := congrFun (congrFun h 0) 1
  rw [update_network_apply,
    downdate_network_apply_of_lt false (by norm_num)] at h01
  norm_num at h01

/-- Claim C4 (amended): update-then-downdate of the same edge restores
the matrix whenever the targeted weight is non-negative, and
downdate-then-update restores it whenever the targeted weight is at
least `1`; for a weight in `[0, 1)` downdating zeroes the edge so the
round trip produces weight `1` instead. -/
theorem update_downdate_roundtrip {n : ℕ}
    (A : Matrix (Fin n) (Fin n) ℝ) (e : Fin n × Fin n) (d : Bool) :
    (0 ≤ A e.1 e.2 → downdate_network (update_network A e d) e d = A) ∧
      (1 ≤ A e.1 e.2 → update_network (downdate_network A e d) e d = A) := by
  constructor
  · intro h0
    have hU : ¬ (update_network A e d) e.1 e.2 < 1 := by
      rw [update_network_apply, if_pos Prod.mk.eta]
      push_neg
      split_ifs <;> linarith
    ext p q
    rw [downdate_network_apply_of_ge d hU, update_network_apply]
    ring
  · intro h1
    have hD : ¬ A e.1 e.2 < 1 := not_lt.mpr h1
    ext p q
    rw [update_network_apply, downdate_network_apply_of_ge d hD]
    ring

theorem update_downdate_roundtrip_witness :
    update_network
        (downdate_network (fun _ _ => (1 : ℝ) : Matrix (Fin 1) (Fin 1) ℝ)
          ((0 : Fin 1), (0 : Fin 1)) false)
        ((0 : Fin 1), (0 : Fin 1)) false =
      (fun _ _ => (1 : ℝ) : Matrix (Fin 1) (Fin 1) ℝ) :=
  (update_downdate_roundtrip _ _ _).2 (by norm_num)

/-- Claim C6 is false as stated: downdating the self-loop of an
undirected 1-node graph with weight `1` decrements the diagonal cell
twice and produces the negative weight `-1`. -/
theorem downdate_selfloop_negative :
    downdate_network (fun _ _ => (1 : ℝ) : Matrix (Fin 1) (Fin 1) ℝ)
        ((0 : Fin 1), (0 : Fin 1)) false 0 0 < 0 := by
  rw [downdate_network_apply_of_ge false (by norm_num)]
  norm_num

/-- Claim C6 (amended): starting from an entrywise non-negative matrix,
`update_network` always returns a non-negative matrix, and
`downdate_network` does so for directed graphs and for undirected
modifications of a symmetric matrix at an off-diagonal edge; the one
exception is an undirected self-loop of weight in `[1, 2)`, which is
decremented twice and goes negative. -/
theorem modifications_preserve_nonneg {n : ℕ}
    (A : Matrix (Fin n) (Fin n) ℝ) (e : Fin n × Fin n) (d : Bool)
    (hA : ∀ p q, 0 ≤ A p q) :
    (∀ p q, 0 ≤ update_network A e d p q) ∧
      ((d = true ∨ (Aᵀ = A ∧ e.1 ≠ e.2)) →
        ∀ p q, 0 ≤ downdate_network A e d p q) := by
  constructor
  · intro p q
    rw [update_network_apply]
    have := hA p q
    split_ifs <;> linarith
  · intro hcond p q
    by_cases hlt : A e.1 e.2 < 1
    · rw [downdate_network_apply_of_lt d hlt]
      split_ifs
      · exact le_refl 0
      · exact hA p q
    · have h1 : 1 ≤ A e.1 e.2 := not_lt.mp hlt
      rw [downdate_network_apply_of_ge d hlt]
      by_cases he : (p, q) = e
      · have hpq : p = e.1 ∧ q = e.2 := Prod.mk.injEq .. ▸ he
        by_cases hm : d = false ∧ (p, q) = (e.2, e.1)
        · exfalso
          rcases hcond with hd | ⟨_, hne⟩
          · rw [hd] at hm
            exact absurd hm.1 (by simp)
          · have : p = e.2 ∧ q = e.1 := Prod.mk.injEq .. ▸ hm.2
            exact hne (hpq.1 ▸ this.1.symm ▸ rfl)
        · rw [if_pos he, if_neg hm]
          rw [hpq.1, hpq.2]
          linarith
      · by_cases hm : d = false ∧ (p, q) = (e.2, e.1)
        · have hpq : p = e.2 ∧ q = e.1 := Prod.mk.injEq .. ▸ hm.2
          rcases hcond with hd | ⟨hsymm, _⟩
          · exact absurd (hd ▸ hm.1) (by simp)
          · have hval : A e.2 e.1 = A e.1 e.2 := by
              have h := congrFun (congrFun hsymm e.1) e.2
              rwa [Matrix.transpose_apply] at h
            rw [if_neg he, if_pos hm, hpq.1, hpq.2, hval]
            linarith
        · rw [if_neg he, if_neg hm]
          have := hA p q
          linarith

theorem modifications_preserve_nonneg_witness :
    0 ≤ downdate_network (fun _ _ => (1 : ℝ) : Matrix (Fin 2) (Fin 2) ℝ)
        ((0 : Fin 2), (1 : Fin 2)) false 0 1 :=
  (modifications_preserve_nonneg _ _ _ (fun _ _ => by norm_num)).2
    (Or.inr ⟨by ext p q; rfl, by decide⟩) 0 1

/-- Row-major enumeration of all index pairs of an `n × n` array
(`for i in range(n): for j in range(n)` flattened), the order used by
`numpy.ndarray.flatten` and `numpy.nonzero`. -/
def rowMajorPairs (n : ℕ) : List (Fin n × Fin n) :=
  (List.finRange n).flatMap fun i => (List.finRange n).map fun j => (i, j)

/-- Row-major enumeration of the upper-triangular index pairs, diagonal
included, the order produced by `numpy.triu_indices(n)`. -/
def triuPairs (n : ℕ) : List (Fin n × Fin n) :=
  (List.finRange n).flatMap fun i =>
    ((List.finRange n).filter fun j => i ≤ j).map fun j => (i, j)

/-- Embedding of `Tools.generate_edge_list`: the row-major list of
nonzero positions (`adj_matrix.nonzero()`) for directed graphs, and the
row-major list of nonzero upper-triangular positions
(`ssp.triu(adj_matrix).nonzero()`) for undirected graphs. -/
def generate_edge_list {n : ℕ} {α : Type*} [Zero α] [DecidableEq α]
    (adj_matrix : Matrix (Fin n) (Fin n) α) (directed : Bool) :
    List (Fin n × Fin n) :=
  if directed then (rowMajorPairs n).filter fun pq => adj_matrix pq.1 pq.2 ≠ 0
  else (triuPairs n).filter fun pq => adj_matrix pq.1 pq.2 ≠ 0

/-- The 0/1 matrix of virtual edges,
`np.where((adj_matrix == 0) & ~np.eye(n, dtype=bool), 1, 0)`, built the
same way by all five centrality measures. -/
def virtualMatrix {n : ℕ} {α : Type*} [Zero α] [One α] [DecidableEq α]
    (adj_matrix : Matrix (Fin n) (Fin n) α) : Matrix (Fin n) (Fin n) α :=
  fun p q => if adj_matrix p q = 0 ∧ p ≠ q then 1 else 0

/-- The pair (existing-edge list, virtual-edge list) that every
centrality measure in `EdgeCentralityMeasures.py` returns. -/
def measure_edge_lists {n : ℕ} {α : Type*} [Zero α] [One α] [DecidableEq α]
    (adj_matrix : Matrix (Fin n) (Fin n) α) (directed : Bool) :
    List (Fin n × Fin n) × List (Fin n × Fin n) :=
  (generate_edge_list adj_matrix directed,
    generate_edge_list (virtualMatrix adj_matrix) directed)

lemma mem_rowMajorPairs {n : ℕ} (pq : Fin n × Fin n) : pq ∈ rowMajorPairs n := by
  simp only [rowMajorPairs, List.mem_flatMap, List.mem_map]
  exact ⟨pq.1, List.mem_finRange _, pq.2, List.mem_finRange _, rfl⟩

lemma nodup_rowMajorPairs {n : ℕ} : (rowMajorPairs n).Nodup := by
  rw [rowMajorPairs, List.nodup_flatMap]
  refine ⟨fun i _ => List.Nodup.map ?_ (List.nodup_finRange n), ?_⟩
  · intro a b h
    exact congrArg Prod.snd h
  · refine List.Pairwise.imp ?_ (List.nodup_finRange n)
    intro i j hij x hx hx'
    simp only [List.mem_map] at hx hx'
    obtain ⟨a, _, rfl⟩ := hx
    obtain ⟨b, _, hb⟩ := hx'
    exact hij (congrArg Prod.fst hb).symm

lemma mem_triuPairs {n : ℕ} (pq : Fin n × Fin n) :
    pq ∈ triuPairs n ↔ pq.1 ≤ pq.2 := by
  simp only [triuPairs, List.mem_flatMap, List.mem_map, List.mem_filter]
  constructor
  · rintro ⟨i, _, j, ⟨_, hij⟩, rfl⟩
    exact of_decide_eq_true hij
  · intro h
    exact ⟨pq.1, List.mem_finRange _,
      pq.2, ⟨List.mem_finRange _, decide_eq_true h⟩, rfl⟩

lemma nodup_triuPairs {n : ℕ} : (triuPairs n).Nodup := by
  rw [triuPairs, List.nodup_flatMap]
  refine ⟨fun i _ => List.Nodup.map ?_ ((List.nodup_finRange n).filter _), ?_⟩
  · intro a b h
    exact congrArg Prod.snd h
  · refine List.Pairwise.imp ?_ (List.nodup_finRange n)
    intro i j hij x hx hx'
    simp only [List.mem_map] at hx hx'
    obtain ⟨a, _, rfl⟩ := hx
    obtain ⟨b, _, hb⟩ := hx'
    exact hij (congrArg Prod.fst hb).symm

lemma toFinset_rowMajorPairs {n : ℕ} :
    (rowMajorPairs n).toFinset = Finset.univ :=
  Finset.eq_univ_iff_forall.mpr fun pq => List.mem_toFinset.mpr (mem_rowMajorPairs pq)

lemma toFinset_triuPairs {n : ℕ} :
    (triuPairs n).toFinset =
      Finset.univ.filter fun pq : Fin n × Fin n => pq.1 ≤ pq.2 := by
  ext pq
  simp [mem_triuPairs]

lemma length_filter_rowMajorPairs {n : ℕ} (P : Fin n × Fin n → Bool) :
    ((rowMajorPairs n).filter P).length =
      (Finset.univ.filter fun pq => P pq = true).card := by
  rw [← List.toFinset_card_of_nodup (nodup_rowMajorPairs.filter P),
    List.toFinset_filter, toFinset_rowMajorPairs]

lemma length_filter_triuPairs {n : ℕ} (P : Fin n × Fin n → Bool) :
    ((triuPairs n).filter P).length =
      (Finset.univ.filter fun pq : Fin n × Fin n =>
        pq.1 ≤ pq.2 ∧ P pq = true).card := by
  rw [← List.toFinset_card_of_nodup (nodup_triuPairs.filter P),
    List.toFinset_filter, toFinset_triuPairs, Finset.filter_filter]

lemma virtualMatrix_ne_zero_iff {n : ℕ} (A : Matrix (Fin n) (Fin n) ℝ) (p q : Fin n) :
    virtualMatrix A p q ≠ 0 ↔ A p q = 0 ∧ p ≠ q := by
  simp only [virtualMatrix]
  split_ifs with h
  · simpa using h
  · simpa using h

lemma card_filter_and_split {n : ℕ} (P Q : Fin n × Fin n → Prop)
    [DecidablePred P] [DecidablePred Q] :
    (Finset.univ.filter fun x => P x ∧ Q x).card +
      (Finset.univ.filter fun x => P x ∧ ¬ Q x).card =
      (Finset.univ.filter P).card := by
  rw [← Finset.filter_filter, ← Finset.filter_filter]
  exact Finset.filter_card_add_filter_neg_card_eq_card Q

lemma card_diag_nonzero {n : ℕ} (A : Matrix (Fin n) (Fin n) ℝ) :
    (Finset.univ.filter fun pq : Fin n × Fin n =>
        A pq.1 pq.2 ≠ 0 ∧ pq.1 = pq.2).card =
      (Finset.univ.filter fun i : Fin n => A i i ≠ 0).card := by
  apply Finset.card_nbij' (fun pq => pq.1) (fun i => (i, i))
  · intro pq hpq
    rw [Finset.mem_filter] at hpq ⊢
    refine ⟨Finset.mem_univ _, ?_⟩
    rw [← hpq.2.2] at hpq
    exact hpq.2.1
  · intro i hi
    rw [Finset.mem_filter] at hi ⊢
    exact ⟨Finset.mem_univ _, hi.2, rfl⟩
  · intro pq hpq
    rw [Finset.mem_filter] at hpq
    exact Prod.ext rfl hpq.2.2
  · intro i _
    rfl

lemma card_offDiag_pairs {n : ℕ} :
    (Finset.univ.filter fun pq : Fin n × Fin n => pq.1 ≠ pq.2).card = n * n - n := by
  have h : (Finset.univ.filter fun pq : Fin n × Fin n => pq.1 ≠ pq.2) =
      (Finset.univ : Finset (Fin n)).offDiag := by
    ext pq
    simp [Finset.mem_offDiag]
  rw [h, Finset.offDiag_card, Finset.card_univ, Fintype.card_fin]

lemma card_lt_pairs {n : ℕ} :
    (Finset.univ.filter fun pq : Fin n × Fin n => pq.1 < pq.2).card =
      n * (n - 1) / 2 := by
  have hswap : (Finset.univ.filter fun pq : Fin n × Fin n => pq.1 < pq.2).card =
      (Finset.univ.filter fun pq : Fin n × Fin n => pq.2 < pq.1).card := by
    apply Finset.card_nbij' Prod.swap Prod.swap
    · intro pq hpq
      simp only [Finset.mem_filter, Finset.mem_univ, true_and] at hpq ⊢
      exact hpq
    · intro pq hpq
      simp only [Finset.mem_filter, Finset.mem_univ, true_and] at hpq ⊢
      exact hpq
    · intro pq _
      rfl
    · intro pq _
      rfl
  have hpart : (Finset.univ.filter fun pq : Fin n × Fin n => pq.1 ≠ pq.2 ∧ pq.1 < pq.2).card +
      (Finset.univ.filter fun pq : Fin n × Fin n => pq.1 ≠ pq.2 ∧ ¬ pq.1 < pq.2).card =
      (Finset.univ.filter fun pq : Fin n × Fin n => pq.1 ≠ pq.2).card :=
    card_filter_and_split _ _
  have h1 : (Finset.univ.filter fun pq : Fin n × Fin n => pq.1 ≠ pq.2 ∧ pq.1 < pq.2) =
      Finset.univ.filter fun pq : Fin n × Fin n => pq.1 < pq.2 := by
    apply Finset.filter_congr
    intro pq _
    exact ⟨fun h => h.2, fun h => ⟨ne_of_lt h, h⟩⟩
  have h2 : (Finset.univ.filter fun pq : Fin n × Fin n => pq.1 ≠ pq.2 ∧ ¬ pq.1 < pq.2) =
      Finset.univ.filter fun pq : Fin n × Fin n => pq.2 < pq.1 := by
    apply Finset.filter_congr
    intro pq _
    constructor
    · rintro ⟨hne, hnlt⟩
      exact lt_of_le_of_ne (not_lt.mp hnlt) (Ne.symm hne)
    · intro h
      exact ⟨(ne_of_lt h).symm, not_lt.mpr (le_of_lt h)⟩
  rw [h1, h2, card_offDiag_pairs, ← hswap] at hpart
  have hmul : n * (n - 1) = n * n - n := by
    cases n with
    | zero => simp
    | succ k =>
      have hx : (k + 1) * ((k + 1) - 1) = (k + 1) * k := by simp
      have hy : (k + 1) * (k + 1) = (k + 1) * k + (k + 1) := by ring
      omega
  omega

/-- Claim C7 is false as stated: for the directed 1-node graph with a
self-loop of weight 1, the existing list contains the self-loop and the
virtual list is empty, so the lengths sum to 1, not `n² − n = 0`. -/
theorem edge_list_count_selfloop :
    (measure_edge_lists (fun _ _ => (1 : ℝ) : Matrix (Fin 1) (Fin 1) ℝ) true).1.length +
      (measure_edge_lists (fun _ _ => (1 : ℝ) : Matrix (Fin 1) (Fin 1) ℝ) true).2.length ≠
      1 ^ 2 - 1 := by
  have hrm : rowMajorPairs 1 = [((0 : Fin 1), (0 : Fin 1))] := by decide
  simp only [measure_edge_lists, generate_edge_list, if_pos, hrm, List.filter,
    virtualMatrix]
  norm_num

/-- Claim C7 (amended): for every `n × n` matrix the existing- and
virtual-edge list lengths sum to `n² − n` (directed) resp.
`n(n−1)/2` (undirected) **plus the number of nonzero diagonal entries**;
the claimed counts hold exactly when the diagonal is zero, since
self-loops are counted in the existing list while the diagonal is
excluded from the virtual list. -/
theorem edge_list_counts {n : ℕ} (A : Matrix (Fin n) (Fin n) ℝ) :
    (measure_edge_lists A true).1.length + (measure_edge_lists A true).2.length =
      n ^ 2 - n + (Finset.univ.filter fun i : Fin n => A i i ≠ 0).card ∧
    (measure_edge_lists A false).1.length + (measure_edge_lists A false).2.length =
      n * (n - 1) / 2 + (Finset.univ.filter fun i : Fin n => A i i ≠ 0).card := by
  have hv : ∀ pq : Fin n × Fin n,
      (decide (virtualMatrix A pq.1 pq.2 ≠ 0) = true) ↔
        (A pq.1 pq.2 = 0 ∧ pq.1 ≠ pq.2) := by
    intro pq
    rw [decide_eq_true_iff]
    exact virtualMatrix_ne_zero_iff A pq.1 pq.2
  constructor
  · simp only [measure_edge_lists, generate_edge_list, if_pos]
    rw [length_filter_rowMajorPairs, length_filter_rowMajorPairs]
    have e1 : (Finset.univ.filter fun pq : Fin n × Fin n =>
        decide (A pq.1 pq.2 ≠ 0) = true) =
        Finset.univ.filter fun pq : Fin n × Fin n => A pq.1 pq.2 ≠ 0 := by
      apply Finset.filter_congr
      intro pq _
      exact decide_eq_true_iff
    have e2 : (Finset.univ.filter fun pq : Fin n × Fin n =>
        decide (virtualMatrix A pq.1 pq.2 ≠ 0) = true) =
        Finset.univ.filter fun pq : Fin n × Fin n =>
          A pq.1 pq.2 = 0 ∧ pq.1 ≠ pq.2 := by
      apply Finset.filter_congr
      intro pq _
      exact hv pq
    rw [e1, e2]
    have hsplit : (Finset.univ.filter fun pq : Fin n × Fin n =>
        A pq.1 pq.2 ≠ 0 ∧ pq.1 = pq.2).card +
        (Finset.univ.filter fun pq : Fin n × Fin n =>
          A pq.1 pq.2 ≠ 0 ∧ ¬ pq.1 = pq.2).card =
        (Finset.univ.filter fun pq : Fin n × Fin n => A pq.1 pq.2 ≠ 0).card :=
      card_filter_and_split _ _
    have hoff : (Finset.univ.filter fun pq : Fin n × Fin n =>
        pq.1 ≠ pq.2 ∧ A pq.1 pq.2 ≠ 0).card +
        (Finset.univ.filter fun pq : Fin n × Fin n =>
          pq.1 ≠ pq.2 ∧ ¬ A pq.1 pq.2 ≠ 0).card =
        (Finset.univ.filter fun pq : Fin n × Fin n => pq.1 ≠ pq.2).card :=
      card_filter_and_split _ _
    have c1 : (Finset.univ.filter fun pq : Fin n × Fin n =>
        A pq.1 pq.2 ≠ 0 ∧ ¬ pq.1 = pq.2) =
        Finset.univ.filter fun pq : Fin n × Fin n =>
          pq.1 ≠ pq.2 ∧ A pq.1 pq.2 ≠ 0 := by
      apply Finset.filter_congr
      intro pq _
      exact and_comm
    have c2 : (Finset.univ.filter fun pq : Fin n × Fin n =>
        pq.1 ≠ pq.2 ∧ ¬ A pq.1 pq.2 ≠ 0) =
        Finset.univ.filter fun pq : Fin n × Fin n =>
          A pq.1 pq.2 = 0 ∧ pq.1 ≠ pq.2 := by
      apply Finset.filter_congr
      intro pq _
      rw [not_not]
      exact and_comm
    rw [c1] at hsplit
    rw [c2] at hoff
    have hd := card_diag_nonzero A
    have hoffcard := card_offDiag_pairs (n := n)
    rw [pow_two]
    omega
  · have hgel : ∀ B : Matrix (Fin n) (Fin n) ℝ, generate_edge_list B false =
        (triuPairs n).filter fun pq => B pq.1 pq.2 ≠ 0 := fun _ => rfl
    simp only [measure_edge_lists]
    rw [hgel, hgel, length_filter_triuPairs, length_filter_triuPairs]
    have e1 : (Finset.univ.filter fun pq : Fin n × Fin n =>
        pq.1 ≤ pq.2 ∧ decide (A pq.1 pq.2 ≠ 0) = true) =
        Finset.univ.filter fun pq : Fin n × Fin n =>
          pq.1 ≤ pq.2 ∧ A pq.1 pq.2 ≠ 0 := by
      apply Finset.filter_congr
      intro pq _
      exact and_congr_right fun _ => decide_eq_true_iff
    have e2 : (Finset.univ.filter fun pq : Fin n × Fin n =>
        pq.1 ≤ pq.2 ∧ decide (virtualMatrix A pq.1 pq.2 ≠ 0) = true) =
        Finset.univ.filter fun pq : Fin n × Fin n =>
          pq.1 ≤ pq.2 ∧ (A pq.1 pq.2 = 0 ∧ pq.1 ≠ pq.2) := by
      apply Finset.filter_congr
      intro pq _
      exact and_congr_right fun _ => hv pq
    rw [e1, e2]
    have hsplit : (Finset.univ.filter fun pq : Fin n × Fin n =>
        (pq.1 ≤ pq.2 ∧ A pq.1 pq.2 ≠ 0) ∧ pq.1 = pq.2).card +
        (Finset.univ.filter fun pq : Fin n × Fin n =>
          (pq.1 ≤ pq.2 ∧ A pq.1 pq.2 ≠ 0) ∧ ¬ pq.1 = pq.2).card =
        (Finset.univ.filter fun pq : Fin n × Fin n =>
          pq.1 ≤ pq.2 ∧ A pq.1 pq.2 ≠ 0).card :=
      card_filter_and_split _ _
    have hoff : (Finset.univ.filter fun pq : Fin n × Fin n =>
        pq.1 < pq.2 ∧ A pq.1 pq.2 ≠ 0).card +
        (Finset.univ.filter fun pq : Fin n × Fin n =>
          pq.1 < pq.2 ∧ ¬ A pq.1 pq.2 ≠ 0).card =
        (Finset.univ.filter fun pq : Fin n × Fin n => pq.1 < pq.2).card :=
      card_filter_and_split _ _
    have g1 : (Finset.univ.filter fun pq : Fin n × Fin n =>
        (pq.1 ≤ pq.2 ∧ A pq.1 pq.2 ≠ 0) ∧ pq.1 = pq.2) =
        Finset.univ.filter fun pq : Fin n × Fin n =>
          A pq.1 pq.2 ≠ 0 ∧ pq.1 = pq.2 := by
      apply Finset.filter_congr
      intro pq _
      exact ⟨fun h => ⟨h.1.2, h.2⟩, fun h => ⟨⟨le_of_eq h.2, h.1⟩, h.2⟩⟩
    have g2 : (Finset.univ.filter fun pq : Fin n × Fin n =>
        (pq.1 ≤ pq.2 ∧ A pq.1 pq.2 ≠ 0) ∧ ¬ pq.1 = pq.2) =
        Finset.univ.filter fun pq : Fin n × Fin n =>
          pq.1 < pq.2 ∧ A pq.1 pq.2 ≠ 0 := by
      apply Finset.filter_congr
      intro pq _
      constructor
      · rintro ⟨⟨hle, hA⟩, hne⟩
        exact ⟨lt_of_le_of_ne hle hne, hA⟩
      · rintro ⟨hlt, hA⟩
        exact ⟨⟨le_of_lt hlt, hA⟩, ne_of_lt hlt⟩
    have g3 : (Finset.univ.filter fun pq : Fin n × Fin n =>
        pq.1 < pq.2 ∧ ¬ A pq.1 pq.2 ≠ 0) =
        Finset.univ.filter fun pq : Fin n × Fin n =>
          pq.1 ≤ pq.2 ∧ (A pq.1 pq.2 = 0 ∧ pq.1 ≠ pq.2) := by
      apply Finset.filter_congr
      intro pq _
      constructor
      · rintro ⟨hlt, hA⟩
        exact ⟨le_of_lt hlt, not_not.mp hA, ne_of_lt hlt⟩
      · rintro ⟨hle, hA, hne⟩
        exact ⟨lt_of_le_of_ne hle hne, not_not.mpr hA⟩
    rw [g1, g2] at hsplit
    rw [g3] at hoff
    have hd := card_diag_nonzero A
    have hltcard := card_lt_pairs (n := n)
    omega

/-- The contract of `np.argsort(-data)` as used in `Tools.rank_edges`:
a list of positions that enumerates every index of `data` exactly once
and along which the scores are non-increasing.  The numpy default sort
(`kind='quicksort'`, an introsort) guarantees exactly this and is not
documented to be stable, so the embedding admits every compliant output. -/
abbrev IsArgsortDesc {α : Type*} [LinearOrder α] (data : List α)
    (idx : List (Fin data.length)) : Prop :=
  List.Perm idx (List.finRange data.length) ∧
    (idx.map data.get).Sorted (· ≥ ·)

/-- Embedding of `Tools.rank_edges`.  `ranked_data` is the in-place
descending sort of a copy of `data` (`ranked_data[::-1].sort()` sorts
the reversed view ascending), and `ranked_edge_list` collects
`edge_list[i]` for `i` in the index list returned by
`np.argsort(-data)`, here an explicit argument `idx`. -/
def rank_edges {α β : Type*} [LinearOrder α]
    (data : List α) (edge_list : List β) (idx : List (Fin data.length))
    (h : edge_list.length = data.length) : List α × List β :=
  ((List.insertionSort (· ≤ ·) data).reverse,
    idx.map fun i => edge_list.get (Fin.cast h.symm i))

/-- The tie-breaking behaviour asserted by the specification: among
equal scores, positions with the smaller original edge index come
first. -/
abbrev TieStableByIndex {α : Type*} [LinearOrder α] (data : List α)
    (idx : List (Fin data.length)) : Prop :=
  ∀ a b : Fin idx.length, a < b →
    data.get (idx.get a) = data.get (idx.get b) → idx.get a < idx.get b

def exampleScores : List ℚ := [1, 1]

def exampleIdx : List (Fin exampleScores.length) :=
  [⟨1, by decide⟩, ⟨0, by decide⟩]

/-- Claim C2 is false as stated: on the tied score vector `[1, 1]` the
reversed index order `[1, 0]` satisfies the argsort contract, so
`rank_edges` may return the edge with the larger original index first;
tie-breaking by ascending index is not guaranteed. -/
theorem rank_edges_not_tie_stable :
    IsArgsortDesc exampleScores exampleIdx ∧
      (rank_edges exampleScores [10, 20] exampleIdx (by decide)).2 = [20, 10] ∧
      ¬ TieStableByIndex exampleScores exampleIdx := by
  decide

/-- Claim C2 (amended): for every score vector and aligned edge list,
any argsort-contract-compliant index list makes `rank_edges` return the
descending sort of the scores together with the edge list permuted by
that same index list, so the score sequence is non-increasing and
`sortedEdges[i]` is the edge whose original score is `sortedScores[i]`;
the order among tied scores, however, is whatever the (unstable) sort
primitive produced. -/
theorem rank_edges_sorted_aligned {α β : Type*} [LinearOrder α]
    (data : List α) (edge_list : List β) (idx : List (Fin data.length))
    (h : edge_list.length = data.length) (hidx : IsArgsortDesc data idx) :
    (rank_edges data edge_list idx h).1.Sorted (· ≥ ·) ∧
      (rank_edges data edge_list idx h).1 = idx.map data.get ∧
      (rank_edges data edge_list idx h).2 =
        idx.map fun i => edge_list.get (Fin.cast h.symm i) := by
  haveI : IsAntisymm α (· ≥ ·) := ⟨fun _ _ h1 h2 => le_antisymm h2 h1⟩
  have hsorted : ((List.insertionSort (· ≤ ·) data).reverse).Sorted (· ≥ ·) := by
    rw [List.Sorted, List.pairwise_reverse]
    exact List.sorted_insertionSort (· ≤ ·) data
  have hperm : List.Perm ((List.insertionSort (· ≤ ·) data).reverse)
      (idx.map data.get) := by
    refine List.Perm.trans ((List.reverse_perm _).trans
      (List.perm_insertionSort (· ≤ ·) data)) ?_
    have h2 : List.Perm (idx.map data.get)
        ((List.finRange data.length).map data.get) := List.Perm.map _ hidx.1
    rw [List.finRange_map_get] at h2
    exact h2.symm
  refine ⟨hsorted, ?_, rfl⟩
  exact List.eq_of_perm_of_sorted hperm hsorted hidx.2

def witnessScores : List ℚ := [1, 2]

def witnessIdx : List (Fin witnessScores.length) :=
  [⟨1, by decide⟩, ⟨0, by decide⟩]

theorem rank_edges_sorted_aligned_witness :
    (rank_edges witnessScores [10, 20] witnessIdx (by decide)).1.Sorted (· ≥ ·) ∧
      (rank_edges witnessScores [10, 20] witnessIdx (by decide)).1 =
        witnessIdx.map witnessScores.get ∧
      (rank_edges witnessScores [10, 20] witnessIdx (by decide)).2 =
        witnessIdx.map fun i => List.get [10, 20] (Fin.cast (by decide) i) :=
  rank_edges_sorted_aligned witnessScores [10, 20] witnessIdx (by decide)
    (by constructor <;> decide)

/-- Sum of all entries of a matrix (`np.sum`). -/
def sumEntries {n : ℕ} (M : Matrix (Fin n) (Fin n) ℝ) : ℝ :=
  ∑ p : Fin n × Fin n, M p.1 p.2

/-- Sum of the absolute values of all entries; used only to bound the
power series of the matrix exponential and its Fréchet derivative. -/
def sumAbsEntries {n : ℕ} (M : Matrix (Fin n) (Fin n) ℝ) : ℝ :=
  ∑ p : Fin n × Fin n, |M p.1 p.2|

lemma sumAbsEntries_nonneg {n : ℕ} (M : Matrix (Fin n) (Fin n) ℝ) :
    0 ≤ sumAbsEntries M :=
  Finset.sum_nonneg fun _ _ => abs_nonneg _

lemma abs_entry_le_sumAbsEntries {n : ℕ} (M : Matrix (Fin n) (Fin n) ℝ)
    (i j : Fin n) : |M i j| ≤ sumAbsEntries M :=
  Finset.single_le_sum (f := fun p : Fin n × Fin n => |M p.1 p.2|)
    (fun _ _ => abs_nonneg _) (Finset.mem_univ (i, j))

lemma sumAbsEntries_mul_le {n : ℕ} (M N : Matrix (Fin n) (Fin n) ℝ) :
    sumAbsEntries (M * N) ≤ sumAbsEntries M * sumAbsEntries N := by
  have step1 : sumAbsEntries (M * N) ≤
      ∑ p : Fin n × Fin n, ∑ s : Fin n, |M p.1 s| * |N s p.2| := by
    apply Finset.sum_le_sum
    intro p _
    rw [Matrix.mul_apply]
    refine le_trans (Finset.abs_sum_le_sum_abs _ _) ?_
    apply Finset.sum_le_sum
    intro s _
    rw [abs_mul]
  have step2 : ∑ p : Fin n × Fin n, ∑ s : Fin n, |M p.1 s| * |N s p.2| =
      ∑ s : Fin n, (∑ i : Fin n, |M i s|) * (∑ j : Fin n, |N s j|) := by
    calc ∑ p : Fin n × Fin n, ∑ s : Fin n, |M p.1 s| * |N s p.2|
        = ∑ i : Fin n, ∑ j : Fin n, ∑ s : Fin n, |M i s| * |N s j| :=
          Fintype.sum_prod_type _
      _ = ∑ i : Fin n, ∑ s : Fin n, ∑ j : Fin n, |M i s| * |N s j| :=
          Finset.sum_congr rfl fun i _ => Finset.sum_comm
      _ = ∑ s : Fin n, ∑ i : Fin n, ∑ j : Fin n, |M i s| * |N s j| :=
          Finset.sum_comm
      _ = ∑ s : Fin n, (∑ i : Fin n, |M i s|) * (∑ j : Fin n, |N s j|) :=
          Finset.sum_congr rfl fun s _ => (Finset.sum_mul_sum _ _ _ _).symm
  have hcol : ∀ s : Fin n, ∑ i : Fin n, |M i s| ≤ sumAbsEntries M := by
    intro s
    rw [sumAbsEntries, Fintype.sum_prod_type]
    apply Finset.sum_le_sum
    intro i _
    exact Finset.single_le_sum (f := fun j => |M i j|)
      (fun _ _ => abs_nonneg _) (Finset.mem_univ s)
  have hrow : ∑ s : Fin n, ∑ j : Fin n, |N s j| = sumAbsEntries N := by
    rw [sumAbsEntries, Fintype.sum_prod_type]
  have step3 : ∑ s : Fin n, (∑ i : Fin n, |M i s|) * (∑ j : Fin n, |N s j|) ≤
      sumAbsEntries M * sumAbsEntries N := by
    calc ∑ s : Fin n, (∑ i : Fin n, |M i s|) * (∑ j : Fin n, |N s j|)
        ≤ ∑ s : Fin n, sumAbsEntries M * (∑ j : Fin n, |N s j|) := by
          apply Finset.sum_le_sum
          intro s _
          exact mul_le_mul_of_nonneg_right (hcol s)
            (Finset.sum_nonneg fun _ _ => abs_nonneg _)
      _ = sumAbsEntries M * ∑ s : Fin n, ∑ j : Fin n, |N s j| := by
          rw [Finset.mul_sum]
      _ = sumAbsEntries M * sumAbsEntries N := by rw [hrow]
  exact le_trans step1 (le_of_eq_of_le step2 step3)

lemma sumAbsEntries_one {n : ℕ} :
    sumAbsEntries (1 : Matrix (Fin n) (Fin n) ℝ) = n := by
  rw [sumAbsEntries, Fintype.sum_prod_type]
  have h : ∀ i j : Fin n, |(1 : Matrix (Fin n) (Fin n) ℝ) i j| =
      if i = j then (1 : ℝ) else 0 := by
    intro i j
    rw [Matrix.one_apply]
    split_ifs <;> simp
  simp_rw [h]
  simp [Finset.sum_ite_eq]

lemma sumAbsEntries_pow_le {n : ℕ} (A : Matrix (Fin n) (Fin n) ℝ) (k : ℕ) :
    sumAbsEntries (A ^ k) ≤ (n : ℝ) * (max (sumAbsEntries A) 1) ^ k := by
  induction k with
  | zero =>
    rw [pow_zero, pow_zero, mul_one, sumAbsEntries_one]
  | succ k ih =>
    have hC : sumAbsEntries A ≤ max (sumAbsEntries A) 1 := le_max_left _ _
    have hC0 : (0 : ℝ) ≤ max (sumAbsEntries A) 1 :=
      le_trans zero_le_one (le_max_right _ _)
    have hn0 : (0 : ℝ) ≤ (n : ℝ) * (max (sumAbsEntries A) 1) ^ k :=
      mul_nonneg (Nat.cast_nonneg n) (pow_nonneg hC0 k)
    rw [pow_succ]
    refine le_trans (sumAbsEntries_mul_le _ _) ?_
    calc sumAbsEntries (A ^ k) * sumAbsEntries A
        ≤ ((n : ℝ) * (max (sumAbsEntries A) 1) ^ k) * max (sumAbsEntries A) 1 :=
          mul_le_mul ih hC (sumAbsEntries_nonneg A) hn0
      _ = (n : ℝ) * (max (sumAbsEntries A) 1) ^ (k + 1) := by ring

lemma summable_mul_pow_div_factorial (C : ℝ) :
    Summable fun k : ℕ => (k : ℝ) * C ^ (k - 1) / k.factorial := by
  refine (summable_nat_add_iff 1).mp ?_
  have h : (fun j : ℕ => ((j + 1 : ℕ) : ℝ) * C ^ ((j + 1) - 1) / (j + 1).factorial) =
      fun j : ℕ => C ^ j / j.factorial := by
    funext j
    rw [Nat.add_sub_cancel, Nat.factorial_succ, Nat.cast_mul]
    rw [mul_div_mul_left]
    exact Nat.cast_ne_zero.mpr (Nat.succ_ne_zero j)
  rw [h]
  exact Real.summable_pow_div_factorial C

/-- The all-ones matrix `np.ones((n, n))`, written `II` in
`total_network_sensitivity_schweitzer`. -/
def allOnes {n : ℕ} : Matrix (Fin n) (Fin n) ℝ := fun _ _ => 1

/-- The `k`-th term of the power series of the Fréchet derivative of the
matrix exponential, `(1/k!) ∑_{l+m=k-1} Aˡ E Aᵐ`. -/
noncomputable def frechetTerm {n : ℕ} (A E : Matrix (Fin n) (Fin n) ℝ) (k : ℕ) :
    Matrix (Fin n) (Fin n) ℝ :=
  (k.factorial : ℝ)⁻¹ • ∑ l ∈ Finset.range k, A ^ l * E * A ^ (k - 1 - l)

/-- Embedding of `scipy.linalg.expm_frechet(A, E, compute_expm=False)`:
the Fréchet derivative of the matrix exponential at `A` in direction
`E`, given entrywise by its convergent power series. -/
noncomputable def expm_frechet {n : ℕ} (A E : Matrix (Fin n) (Fin n) ℝ) :
    Matrix (Fin n) (Fin n) ℝ :=
  fun i j => tsum fun k => frechetTerm A E k i j

lemma frechetTerm_apply {n : ℕ} (A E : Matrix (Fin n) (Fin n) ℝ) (k : ℕ)
    (i j : Fin n) :
    frechetTerm A E k i j =
      (k.factorial : ℝ)⁻¹ *
        ∑ l ∈ Finset.range k, (A ^ l * E * A ^ (k - 1 - l)) i j := by
  rw [frechetTerm, Matrix.smul_apply, smul_eq_mul]
  congr 1
  rw [Matrix.sum_apply]

lemma norm_frechetTerm_entry_le {n : ℕ} (A E : Matrix (Fin n) (Fin n) ℝ)
    (k : ℕ) (i j : Fin n) :
    ‖frechetTerm A E k i j‖ ≤
      ((n : ℝ) ^ 2 * sumAbsEntries E) *
        ((k : ℝ) * (max (sumAbsEntries A) 1) ^ (k - 1) / k.factorial) := by
  set C : ℝ := max (sumAbsEntries A) 1 with hCdef
  have hC0 : (0 : ℝ) ≤ C := le_trans zero_le_one (le_max_right _ _)
  have hfact : (0 : ℝ) < (k.factorial : ℝ) :=
    Nat.cast_pos.mpr k.factorial_pos
  have hterm : ∀ l ∈ Finset.range k,
      |(A ^ l * E * A ^ (k - 1 - l)) i j| ≤
        (n : ℝ) ^ 2 * sumAbsEntries E * C ^ (k - 1) := by
    intro l hl
    have hl' : l ≤ k - 1 := Nat.le_pred_of_lt (Finset.mem_range.mp hl)
    have h1 : |(A ^ l * E * A ^ (k - 1 - l)) i j| ≤
        sumAbsEntries (A ^ l * E * A ^ (k - 1 - l)) :=
      abs_entry_le_sumAbsEntries _ i j
    have h2 : sumAbsEntries (A ^ l * E * A ^ (k - 1 - l)) ≤
        sumAbsEntries (A ^ l) * sumAbsEntries E * sumAbsEntries (A ^ (k - 1 - l)) := by
      refine le_trans (sumAbsEntries_mul_le _ _) ?_
      exact mul_le_mul_of_nonneg_right (sumAbsEntries_mul_le _ _)
        (sumAbsEntries_nonneg _)
    have h3 : sumAbsEntries (A ^ l) * sumAbsEntries E * sumAbsEntries (A ^ (k - 1 - l)) ≤
        (n : ℝ) * C ^ l * sumAbsEntries E * ((n : ℝ) * C ^ (k - 1 - l)) := by
      apply mul_le_mul
      · exact mul_le_mul_of_nonneg_right (sumAbsEntries_pow_le A l)
          (sumAbsEntries_nonneg E)
      · exact sumAbsEntries_pow_le A (k - 1 - l)
      · exact sumAbsEntries_nonneg _
      · exact mul_nonneg (mul_nonneg (Nat.cast_nonneg n) (pow_nonneg hC0 l))
          (sumAbsEntries_nonneg E)
    have hpow : C ^ l * C ^ (k - 1 - l) = C ^ (k - 1) := by
      rw [← pow_add, Nat.add_sub_cancel' hl']
    have h4 : (n : ℝ) * C ^ l * sumAbsEntries E * ((n : ℝ) * C ^ (k - 1 - l)) =
        (n : ℝ) ^ 2 * sumAbsEntries E * (C ^ l * C ^ (k - 1 - l)) := by
      ring
    rw [h4, hpow] at h3
    exact le_trans h1 (le_trans h2 h3)
  have hsum : |∑ l ∈ Finset.range k, (A ^ l * E * A ^ (k - 1 - l)) i j| ≤
      (k : ℝ) * ((n : ℝ) ^ 2 * sumAbsEntries E * C ^ (k - 1)) := by
    refine le_trans (Finset.abs_sum_le_sum_abs _ _) ?_
    refine le_trans (Finset.sum_le_sum hterm) ?_
    rw [Finset.sum_const, Finset.card_range, nsmul_eq_mul]
  rw [frechetTerm_apply, Real.norm_eq_abs, abs_mul, abs_inv,
    abs_of_nonneg (le_of_lt hfact)]
  have hstep : (k.factorial : ℝ)⁻¹ *
      |∑ l ∈ Finset.range k, (A ^ l * E * A ^ (k - 1 - l)) i j| ≤
      (k.factorial : ℝ)⁻¹ *
        ((k : ℝ) * ((n : ℝ) ^ 2 * sumAbsEntries E * C ^ (k - 1))) :=
    mul_le_mul_of_nonneg_left hsum (inv_nonneg.mpr (le_of_lt hfact))
  refine le_trans hstep (le_of_eq ?_)
  field_simp
  ring

lemma summable_frechetTerm_entry {n : ℕ} (A E : Matrix (Fin n) (Fin n) ℝ)
    (i j : Fin n) : Summable fun k => frechetTerm A E k i j := by
  apply Summable.of_norm_bounded _
    (((summable_mul_pow_div_factorial (max (sumAbsEntries A) 1)).mul_left
      ((n : ℝ) ^ 2 * sumAbsEntries E)))
  intro k
  exact norm_frechetTerm_entry_le A E k i j

lemma sumEntries_smul {n : ℕ} (c : ℝ) (M : Matrix (Fin n) (Fin n) ℝ) :
    sumEntries (c • M) = c * sumEntries M := by
  simp [sumEntries, Finset.mul_sum]

lemma sumEntries_sum {n : ℕ} {ι : Type*} (s : Finset ι)
    (f : ι → Matrix (Fin n) (Fin n) ℝ) :
    sumEntries (∑ l ∈ s, f l) = ∑ l ∈ s, sumEntries (f l) := by
  rw [sumEntries]
  simp_rw [Matrix.sum_apply]
  rw [Finset.sum_comm]
  rfl

lemma mul_stdBasisMatrix_mul_apply {n : ℕ} (M N : Matrix (Fin n) (Fin n) ℝ)
    (i j p q : Fin n) :
    (M * Matrix.stdBasisMatrix i j (1 : ℝ) * N) p q = M p i * N j q := by
  rw [Matrix.mul_assoc, Matrix.mul_apply]
  have h : ∀ s : Fin n, (Matrix.stdBasisMatrix i j (1 : ℝ) * N) s q =
      if s = i then N j q else 0 := by
    intro s
    by_cases hs : s = i
    · subst hs
      rw [if_pos rfl, Matrix.StdBasisMatrix.mul_left_apply_same, one_mul]
    · rw [if_neg hs]
      exact Matrix.StdBasisMatrix.mul_left_apply_of_ne i j 1 s q hs N
  simp_rw [h, mul_ite, mul_zero]
  rw [Finset.sum_ite_eq' Finset.univ i fun s => M p s * N j q]
  rw [if_pos (Finset.mem_univ i)]

lemma mul_allOnes_mul_apply {n : ℕ} (M N : Matrix (Fin n) (Fin n) ℝ)
    (p q : Fin n) :
    (M * allOnes * N : Matrix (Fin n) (Fin n) ℝ) p q =
      (∑ s : Fin n, M p s) * (∑ t : Fin n, N t q) := by
  rw [Matrix.mul_assoc, Matrix.mul_apply]
  have h : ∀ s : Fin n, (allOnes * N : Matrix (Fin n) (Fin n) ℝ) s q =
      ∑ t : Fin n, N t q := by
    intro s
    rw [Matrix.mul_apply]
    simp [allOnes]
  simp_rw [h]
  rw [← Finset.sum_mul]

lemma sumEntries_frechetTerm_stdBasis {n : ℕ} (A : Matrix (Fin n) (Fin n) ℝ)
    (i j : Fin n) (k : ℕ) :
    sumEntries (frechetTerm A (Matrix.stdBasisMatrix i j 1) k) =
      frechetTerm Aᵀ allOnes k i j := by
  rw [frechetTerm, sumEntries_smul, sumEntries_sum, frechetTerm_apply]
  congr 1
  apply Finset.sum_congr rfl
  intro l _
  rw [sumEntries]
  simp_rw [mul_stdBasisMatrix_mul_apply]
  rw [Fintype.sum_prod_type]
  dsimp only
  rw [← Finset.sum_mul_sum]
  rw [mul_allOnes_mul_apply]
  simp_rw [← Matrix.transpose_pow, Matrix.transpose_apply]

/-- Adjoint identity: the total of the Fréchet derivative at a
single-entry direction equals the `(i, j)` entry of one Fréchet
derivative of the transposed matrix at the all-ones direction.  This is
the linearity/adjointness fact relating the naive per-entry evaluation
to the closed form of Schweitzer. -/
lemma sumEntries_expm_frechet_stdBasis {n : ℕ} (A : Matrix (Fin n) (Fin n) ℝ)
    (i j : Fin n) :
    sumEntries (expm_frechet A (Matrix.stdBasisMatrix i j 1)) =
      expm_frechet Aᵀ allOnes i j := by
  have hsummable : ∀ p : Fin n × Fin n, p ∈ (Finset.univ : Finset (Fin n × Fin n)) →
      Summable fun k => frechetTerm A (Matrix.stdBasisMatrix i j 1) k p.1 p.2 :=
    fun p _ => summable_frechetTerm_entry A _ p.1 p.2
  have h1 : sumEntries (expm_frechet A (Matrix.stdBasisMatrix i j 1)) =
      tsum (fun k => ∑ p : Fin n × Fin n,
        frechetTerm A (Matrix.stdBasisMatrix i j 1) k p.1 p.2) := by
    rw [sumEntries]
    exact (tsum_sum hsummable).symm
  rw [h1]
  have h2 : ∀ k : ℕ, ∑ p : Fin n × Fin n,
      frechetTerm A (Matrix.stdBasisMatrix i j 1) k p.1 p.2 =
      frechetTerm Aᵀ allOnes k i j := fun k =>
    sumEntries_frechetTerm_stdBasis A i j k
  exact tsum_congr h2

lemma pow_entry_symm {n : ℕ} {A : Matrix (Fin n) (Fin n) ℝ} (hA : Aᵀ = A)
    (m : ℕ) (a b : Fin n) : (A ^ m) a b = (A ^ m) b a := by
  have h : (A ^ m)ᵀ = A ^ m := by rw [Matrix.transpose_pow, hA]
  have h2 := congrFun (congrFun h b) a
  rw [Matrix.transpose_apply] at h2
  exact h2

/-- For a symmetric matrix the Fréchet derivative at the all-ones
direction is itself symmetric. -/
lemma expm_frechet_allOnes_symm {n : ℕ} {A : Matrix (Fin n) (Fin n) ℝ}
    (hA : Aᵀ = A) (i j : Fin n) :
    expm_frechet A allOnes i j = expm_frechet A allOnes j i := by
  apply tsum_congr
  intro k
  rw [frechetTerm_apply, frechetTerm_apply]
  congr 1
  have hrow : ∀ (m : ℕ) (x : Fin n), (∑ t : Fin n, (A ^ m) t x) =
      ∑ t : Fin n, (A ^ m) x t :=
    fun m x => Finset.sum_congr rfl fun t _ => pow_entry_symm hA m t x
  simp_rw [mul_allOnes_mul_apply, hrow]
  conv_rhs => rw [← Finset.sum_range_reflect]
  apply Finset.sum_congr rfl
  intro l hl
  have hl' : l ≤ k - 1 := Nat.le_pred_of_lt (Finset.mem_range.mp hl)
  rw [Nat.sub_sub_self hl', mul_comm]

lemma frechetTerm_zero_of_ne_one {n : ℕ} (E : Matrix (Fin n) (Fin n) ℝ)
    (k : ℕ) (hk : k ≠ 1) :
    frechetTerm (0 : Matrix (Fin n) (Fin n) ℝ) E k = 0 := by
  rcases k with _ | k
  · simp [frechetTerm]
  · have hk0 : k ≠ 0 := fun h => hk (by rw [h])
    rw [frechetTerm]
    have hz : ∑ l ∈ Finset.range (k + 1),
        (0 : Matrix (Fin n) (Fin n) ℝ) ^ l * E * 0 ^ (k + 1 - 1 - l) = 0 := by
      apply Finset.sum_eq_zero
      intro l hl
      by_cases hl0 : l = 0
      · subst hl0
        have hke : k + 1 - 1 - 0 = k := rfl
        rw [hke, pow_zero, one_mul, zero_pow hk0, mul_zero]
      · rw [zero_pow hl0, zero_mul, zero_mul]
    rw [hz, smul_zero]

lemma frechetTerm_zero_one {n : ℕ} (E : Matrix (Fin n) (Fin n) ℝ) :
    frechetTerm (0 : Matrix (Fin n) (Fin n) ℝ) E 1 = E := by
  rw [frechetTerm, Finset.sum_range_one]
  norm_num

/-- At `A = 0` the Fréchet derivative of the matrix exponential is the
identity map in the direction argument. -/
lemma expm_frechet_zero {n : ℕ} (E : Matrix (Fin n) (Fin n) ℝ) :
    expm_frechet (0 : Matrix (Fin n) (Fin n) ℝ) E = E := by
  funext i j
  show tsum (fun k => frechetTerm (0 : Matrix (Fin n) (Fin n) ℝ) E k i j) = E i j
  rw [tsum_eq_single 1]
  · rw [frechetTerm_zero_one]
  · intro k hk
    rw [frechetTerm_zero_of_ne_one E k hk]
    rfl

/-- A single body iteration of the entry loop shared by
`total_network_sensitivity` and `perron_network_sensitivity`: write the
value `v i j` of the current loop index `(i, j)` into cells `(i, j)` and
`(j, i)` of the accumulator. -/
def symWrite {n : ℕ} (v : Fin n → Fin n → ℝ)
    (M : Matrix (Fin n) (Fin n) ℝ) (ij : Fin n × Fin n) :
    Matrix (Fin n) (Fin n) ℝ :=
  fun p q => if (p, q) = ij ∨ (p, q) = (ij.2, ij.1) then v ij.1 ij.2 else M p q

/-- The nested loop `for i in range(n): for j in range(n): ...` of the
two sensitivity measures, with later writes overwriting earlier ones. -/
def symWriteFold {n : ℕ} (v : Fin n → Fin n → ℝ) : Matrix (Fin n) (Fin n) ℝ :=
  (rowMajorPairs n).foldl (symWrite v) fun _ _ => 0

lemma foldl_symWrite_nocover {n : ℕ} (v : Fin n → Fin n → ℝ) (p q : Fin n)
    (L : List (Fin n × Fin n)) :
    ∀ M : Matrix (Fin n) (Fin n) ℝ,
      (∀ ab ∈ L, ¬ ((p, q) = ab ∨ (p, q) = (ab.2, ab.1))) →
      (L.foldl (symWrite v) M) p q = M p q := by
  induction L with
  | nil => intro M _; rfl
  | cons a L ih =>
    intro M hL
    rw [List.foldl_cons, ih _ (fun ab hab => hL ab (List.mem_cons_of_mem a hab))]
    simp only [symWrite]
    rw [if_neg (hL a (List.mem_cons_self a L))]

lemma finRange_decomp {n : ℕ} (i : Fin n) :
    List.finRange n =
      (List.finRange n).take i.val ++ i :: (List.finRange n).drop (i.val + 1) := by
  have hlen : i.val < (List.finRange n).length := by
    rw [List.length_finRange]
    exact i.isLt
  conv_lhs => rw [← List.take_append_drop i.val (List.finRange n)]
  congr 1
  rw [← List.getElem_cons_drop (List.finRange n) i.val hlen]
  congr 1
  rw [List.getElem_finRange]
  apply Fin.ext
  simp

lemma val_le_of_mem_drop_finRange {n m : ℕ} {a : Fin n}
    (h : a ∈ (List.finRange n).drop m) : m ≤ a.val := by
  obtain ⟨t, ht, hget⟩ := List.mem_iff_getElem.mp h
  rw [List.getElem_drop, List.getElem_finRange] at hget
  have hv := congrArg Fin.val hget
  simp only [Fin.coe_cast] at hv
  omega

lemma symWriteFold_apply {n : ℕ} (v : Fin n → Fin n → ℝ) (p q : Fin n) :
    symWriteFold v p q = v (max p q) (min p q) := by
  set i := max p q with hidef
  set j := min p q with hjdef
  set row : Fin n → List (Fin n × Fin n) :=
    (fun a => (List.finRange n).map fun b => (a, b)) with hrowdef
  have hrowi : row i =
      (((List.finRange n).take j.val).map fun b => (i, b)) ++
        ((i, j) :: ((List.finRange n).drop (j.val + 1)).map fun b => (i, b)) := by
    calc row i = ((List.finRange n).take j.val ++
          j :: (List.finRange n).drop (j.val + 1)).map (fun b => (i, b)) :=
        congrArg (fun l => l.map fun b => (i, b)) (finRange_decomp j)
      _ = _ := by rw [List.map_append, List.map_cons]
  have hlist : rowMajorPairs n =
      ((List.finRange n).take i.val).flatMap row ++
        (((List.finRange n).take j.val).map fun b => (i, b)) ++
        ((i, j) ::
          ((((List.finRange n).drop (j.val + 1)).map fun b => (i, b)) ++
            ((List.finRange n).drop (i.val + 1)).flatMap row)) := by
    calc rowMajorPairs n = (List.finRange n).flatMap row := rfl
      _ = ((List.finRange n).take i.val ++
            i :: (List.finRange n).drop (i.val + 1)).flatMap row :=
        congrArg (fun l => l.flatMap row) (finRange_decomp i)
      _ = ((List.finRange n).take i.val).flatMap row ++
            (row i ++ ((List.finRange n).drop (i.val + 1)).flatMap row) := by
          rw [List.flatMap_append, List.flatMap_cons]
      _ = _ := by
          rw [hrowi]
          simp only [List.append_assoc, List.cons_append]
  have hcov : (p, q) = (i, j) ∨ (p, q) = (j, i) := by
    rcases le_total p q with hle | hle
    · right
      rw [hjdef, hidef, min_eq_left hle, max_eq_right hle]
    · left
      rw [hidef, hjdef, max_eq_left hle, min_eq_right hle]
  have hnc3 : ∀ ab ∈ (((List.finRange n).drop (j.val + 1)).map
      fun b => (i, b)), ¬ ((p, q) = ab ∨ (p, q) = (ab.2, ab.1)) := by
    intro ab hab
    obtain ⟨b, hb, rfl⟩ := List.mem_map.mp hab
    have hbv : j.val + 1 ≤ b.val := val_le_of_mem_drop_finRange hb
    rintro (habs | habs)
    · have hp : p = i := (Prod.mk.injEq .. ▸ habs).1
      have hq : q = b := (Prod.mk.injEq .. ▸ habs).2
      have hqj : q = j := by
        rw [hjdef]
        have hqle : q ≤ p := by
          rw [hp, hidef]
          exact le_max_right p q
        rw [min_eq_right hqle]
      rw [← hq, hqj] at hbv
      omega
    · have hp : p = b := (Prod.mk.injEq .. ▸ habs).1
      have hq : q = i := (Prod.mk.injEq .. ▸ habs).2
      have hpj : p = j := by
        rw [hjdef]
        have hple : p ≤ q := by
          rw [hq, hidef]
          exact le_max_left p q
        rw [min_eq_left hple]
      rw [← hp, hpj] at hbv
      omega
  have hnc4 : ∀ ab ∈ ((List.finRange n).drop (i.val + 1)).flatMap row,
      ¬ ((p, q) = ab ∨ (p, q) = (ab.2, ab.1)) := by
    intro ab hab
    obtain ⟨a, ha, hab2⟩ := List.mem_flatMap.mp hab
    obtain ⟨b, _, rfl⟩ := List.mem_map.mp hab2
    have hav : i.val + 1 ≤ a.val := val_le_of_mem_drop_finRange ha
    rintro (habs | habs)
    · have hp : p = a := (Prod.mk.injEq .. ▸ habs).1
      have : p ≤ i := hidef ▸ le_max_left p q
      rw [hp] at this
      have := Fin.le_def.mp this
      omega
    · have hq : q = a := (Prod.mk.injEq .. ▸ habs).2
      have : q ≤ i := hidef ▸ le_max_right p q
      rw [hq] at this
      have := Fin.le_def.mp this
      omega
  have hnc34 : ∀ ab ∈ ((((List.finRange n).drop (j.val + 1)).map
      fun b => (i, b)) ++ ((List.finRange n).drop (i.val + 1)).flatMap row),
      ¬ ((p, q) = ab ∨ (p, q) = (ab.2, ab.1)) := by
    intro ab hab
    rcases List.mem_append.mp hab with h | h
    · exact hnc3 ab h
    · exact hnc4 ab h
  rw [symWriteFold, hlist, List.foldl_append, List.foldl_append,
    List.foldl_cons]
  rw [foldl_symWrite_nocover v p q _ _ hnc34]
  simp only [symWrite]
  rw [if_pos hcov]

/-- One-step adjacency used by
`scipy.sparse.csgraph.connected_components(..., connection='strong')`:
nonzero entries, symmetrised when `directed=False`. -/
def adjStep {n : ℕ} {α : Type*} [Zero α] [DecidableEq α]
    (A : Matrix (Fin n) (Fin n) α) (directed : Bool) (i j : Fin n) : Bool :=
  if directed then decide (A i j ≠ 0) else decide (A i j ≠ 0 ∨ A j i ≠ 0)

/-- Reachability by paths of length at most `k` in the graph of `adjStep`. -/
def reachN {n : ℕ} {α : Type*} [Zero α] [DecidableEq α]
    (A : Matrix (Fin n) (Fin n) α) (directed : Bool) :
    ℕ → Fin n → Fin n → Bool
  | 0, i, j => decide (i = j)
  | k + 1, i, j =>
      reachN A directed k i j ||
        (List.finRange n).any fun m =>
          reachN A directed k i m && adjStep A directed m j

/-- Mutual reachability (within `n` steps, which saturates reachability). -/
def sccEquiv {n : ℕ} {α : Type*} [Zero α] [DecidableEq α]
    (A : Matrix (Fin n) (Fin n) α) (directed : Bool) (i j : Fin n) : Bool :=
  reachN A directed n i j && reachN A directed n j i

/-- Embedding of the component count `n_components` of
`Tools.connectivity`: the number of strongly connected components
(components of the symmetrised graph when undirected). -/
def n_components {n : ℕ} {α : Type*} [Zero α] [DecidableEq α]
    (A : Matrix (Fin n) (Fin n) α) (directed : Bool) : ℕ :=
  (Finset.univ.image fun i : Fin n =>
    Finset.univ.filter fun j => sccEquiv A directed i j = true).card

/-- Embedding of the `is_connected` flag of `Tools.connectivity`. -/
def is_connected {n : ℕ} {α : Type*} [Zero α] [DecidableEq α]
    (A : Matrix (Fin n) (Fin n) α) (directed : Bool) : Bool :=
  decide (n_components A directed = 1)

lemma sumEntries_add {n : ℕ} (M N : Matrix (Fin n) (Fin n) ℝ) :
    sumEntries (M + N) = sumEntries M + sumEntries N := by
  simp [sumEntries, Finset.sum_add_distrib]

lemma sumEntries_stdBasisMatrix {n : ℕ} (i j : Fin n) :
    sumEntries (Matrix.stdBasisMatrix i j (1 : ℝ)) = 1 := by
  simp [sumEntries, Matrix.stdBasisMatrix, Fintype.sum_prod_type, ite_and,
    Finset.sum_ite_eq, Finset.sum_ite_eq']

/-- The per-entry score of `total_network_sensitivity`:
`(1 + directed) * np.sum(expm_frechet(adj_matrix, E))` for the
single-entry direction `E`. -/
noncomputable def tns_value {n : ℕ} (adj_matrix : Matrix (Fin n) (Fin n) ℝ)
    (directed : Bool) (i j : Fin n) : ℝ :=
  (1 + if directed then (1 : ℝ) else 0) *
    sumEntries (expm_frechet adj_matrix (Matrix.stdBasisMatrix i j 1))

/-- The shared masking pipeline of the centrality measures: multiply the
score matrix by the mask `np.where(keep, 1, nan)`, flatten row-major
(directed) or take `np.triu_indices` (undirected), and drop the NaN
entries; what remains are the scores at the kept positions in traversal
order. -/
noncomputable def maskedVector {n : ℕ} (M : Matrix (Fin n) (Fin n) ℝ)
    (keep : Fin n → Fin n → Prop) [∀ p q, Decidable (keep p q)]
    (directed : Bool) : List ℝ :=
  if directed then
    (rowMajorPairs n).filterMap fun pq =>
      if keep pq.1 pq.2 then some (M pq.1 pq.2) else none
  else
    (triuPairs n).filterMap fun pq =>
      if keep pq.1 pq.2 then some (M pq.1 pq.2) else none

/-- Embedding of `EdgeCentralityMeasures.total_network_sensitivity`
(naive per-entry implementation): the entry loop writes
`(1 + directed) * sum(expm_frechet(A, E_ij))` into cells `(i, j)` and
`(j, i)`, then the masking pipeline splits the matrix into the
existing-edge and virtual-edge score vectors, and the edge lists are
generated from the matrix and its virtual-edge pattern. -/
noncomputable def total_network_sensitivity {n : ℕ}
    (adj_matrix : Matrix (Fin n) (Fin n) ℝ) (directed : Bool) :
    List ℝ × List ℝ × List (Fin n × Fin n) × List (Fin n × Fin n) :=
  (maskedVector (symWriteFold (tns_value adj_matrix directed))
      (fun p q => adj_matrix p q ≠ 0) directed,
    maskedVector (symWriteFold (tns_value adj_matrix directed))
      (fun p q => adj_matrix p q = 0 ∧ p ≠ q) directed,
    generate_edge_list adj_matrix directed,
    generate_edge_list (virtualMatrix adj_matrix) directed)

/-- Embedding of
`EdgeCentralityMeasures.total_network_sensitivity_schweitzer` (closed
form): one Fréchet derivative `expm_frechet(A.T, II.T)` at the all-ones
direction, then the same masking pipeline and edge lists. -/
noncomputable def total_network_sensitivity_schweitzer {n : ℕ}
    (adj_matrix : Matrix (Fin n) (Fin n) ℝ) (directed : Bool) :
    List ℝ × List ℝ × List (Fin n × Fin n) × List (Fin n × Fin n) :=
  (maskedVector (expm_frechet adj_matrixᵀ allOnesᵀ)
      (fun p q => adj_matrix p q ≠ 0) directed,
    maskedVector (expm_frechet adj_matrixᵀ allOnesᵀ)
      (fun p q => adj_matrix p q = 0 ∧ p ≠ q) directed,
    generate_edge_list adj_matrix directed,
    generate_edge_list (virtualMatrix adj_matrix) directed)

/-- The forward difference step `t = 0.00002` of
`perron_network_sensitivity`. -/
noncomputable def pnsStep : ℝ := 2 / 100000

/-- The regularisation constant `delta = 0.00001` added to every entry
of a reducible matrix. -/
noncomputable def pnsDelta : ℝ := 1 / 100000

/-- Embedding of the score matrix of
`EdgeCentralityMeasures.perron_network_sensitivity`, parameterised by
the scalar oracle `pnc` standing for `perron_network_communicability`
(a LAPACK eigenvalue computation, left abstract).  The matrix is
regularised when not (strongly) connected, and the entry loop writes
`(1 + directed) * (1/t) * |pnc(A + t·E_ij) − pnc(A)|` into cells
`(i, j)` and `(j, i)`. -/
noncomputable def perron_network_sensitivity_matrix {n : ℕ}
    (pnc : Matrix (Fin n) (Fin n) ℝ → ℝ)
    (adj_matrix : Matrix (Fin n) (Fin n) ℝ) (directed : Bool) :
    Matrix (Fin n) (Fin n) ℝ :=
  symWriteFold fun i j =>
    (1 + if directed then (1 : ℝ) else 0) * (1 / pnsStep) *
      |pnc ((if is_connected adj_matrix directed then adj_matrix
              else adj_matrix + pnsDelta • allOnes) +
            pnsStep • Matrix.stdBasisMatrix i j 1) -
        pnc (if is_connected adj_matrix directed then adj_matrix
              else adj_matrix + pnsDelta • allOnes)|

lemma maskedVector_undirected_congr {n : ℕ} {M M' : Matrix (Fin n) (Fin n) ℝ}
    (keep : Fin n → Fin n → Prop) [∀ p q, Decidable (keep p q)]
    (h : ∀ pq ∈ triuPairs n, M pq.1 pq.2 = M' pq.1 pq.2) :
    maskedVector M keep false = maskedVector M' keep false := by
  simp only [maskedVector, Bool.false_eq_true, if_false]
  apply List.filterMap_congr
  intro pq hpq
  rw [h pq hpq]

/-- Claim C5 (amended): on undirected (symmetric) inputs the naive
per-entry implementation and the Schweitzer closed form agree exactly —
score vectors and edge lists; in the directed case they differ by the
`(1 + directed)` factor (and an entry transposition), see the
counterexample. -/
theorem tns_schweitzer_undirected {n : ℕ} (A : Matrix (Fin n) (Fin n) ℝ)
    (hA : Aᵀ = A) :
    total_network_sensitivity A false =
      total_network_sensitivity_schweitzer A false := by
  have hentry : ∀ pq ∈ triuPairs n,
      symWriteFold (tns_value A false) pq.1 pq.2 =
        expm_frechet Aᵀ allOnesᵀ pq.1 pq.2 := by
    intro pq hpq
    have hle : pq.1 ≤ pq.2 := (mem_triuPairs pq).mp hpq
    rw [symWriteFold_apply, max_eq_right hle, min_eq_left hle, tns_value]
    have h10 : (1 + if (false : Bool) then (1 : ℝ) else 0) = 1 := by norm_num
    rw [h10, one_mul, sumEntries_expm_frechet_stdBasis]
    have hT : allOnesᵀ = (allOnes : Matrix (Fin n) (Fin n) ℝ) := rfl
    rw [hT, hA]
    exact expm_frechet_allOnes_symm (hA.symm ▸ hA) pq.2 pq.1
  rw [total_network_sensitivity, total_network_sensitivity_schweitzer]
  exact congrArg₂ Prod.mk (maskedVector_undirected_congr _ hentry)
    (congrArg₂ Prod.mk (maskedVector_undirected_congr _ hentry) rfl)

theorem tns_schweitzer_undirected_witness :
    total_network_sensitivity (0 : Matrix (Fin 2) (Fin 2) ℝ) false =
      total_network_sensitivity_schweitzer (0 : Matrix (Fin 2) (Fin 2) ℝ) false :=
  tns_schweitzer_undirected 0 Matrix.transpose_zero

lemma tns_zero_matrix_entry (d : Bool) (p q : Fin 2) :
    symWriteFold (tns_value (0 : Matrix (Fin 2) (Fin 2) ℝ) d) p q =
      1 + if d then (1 : ℝ) else 0 := by
  rw [symWriteFold_apply, tns_value, expm_frechet_zero, sumEntries_stdBasisMatrix,
    mul_one]

lemma schweitzer_zero_matrix_entry (p q : Fin 2) :
    expm_frechet ((0 : Matrix (Fin 2) (Fin 2) ℝ))ᵀ allOnesᵀ p q = 1 := by
  rw [Matrix.transpose_zero, expm_frechet_zero]
  rfl

/-- Claim C5 is false as stated: at the 2×2 zero matrix with
`directed=true` the naive implementation returns virtual-edge scores
`[2, 2]` while the closed form returns `[1, 1]` (the naive directed
scores carry the `(1 + directed) = 2` factor). -/
theorem tns_schweitzer_directed_ne :
    total_network_sensitivity (0 : Matrix (Fin 2) (Fin 2) ℝ) true ≠
      total_network_sensitivity_schweitzer (0 : Matrix (Fin 2) (Fin 2) ℝ) true := by
  have hrm : rowMajorPairs 2 =
      [((0 : Fin 2), (0 : Fin 2)), (0, 1), (1, 0), (1, 1)] := by decide
  have hL : (total_network_sensitivity (0 : Matrix (Fin 2) (Fin 2) ℝ) true).2.1 =
      [2, 2] := by
    simp only [total_network_sensitivity]
    rw [maskedVector, if_pos rfl, hrm]
    simp [List.filterMap_cons, tns_zero_matrix_entry]
    norm_num
  have hR : (total_network_sensitivity_schweitzer
      (0 : Matrix (Fin 2) (Fin 2) ℝ) true).2.1 = [1, 1] := by
    simp only [total_network_sensitivity_schweitzer]
    rw [maskedVector, if_pos rfl, hrm]
    simp [List.filterMap_cons, schweitzer_zero_matrix_entry]
    refine ⟨?_, ?_⟩ <;> rw [expm_frechet_zero] <;> rfl
  intro h
  rw [congrArg (fun t => t.2.1) h, hR] at hL
  have := congrArg (fun l => l.headD 0) hL
  norm_num at this

lemma sumEntries_smul_stdBasis_add {n : ℕ} (M : Matrix (Fin n) (Fin n) ℝ)
    (c : ℝ) (i j : Fin n) :
    sumEntries (M + c • Matrix.stdBasisMatrix i j 1) = sumEntries M + c := by
  rw [sumEntries_add, sumEntries_smul, sumEntries_stdBasisMatrix, mul_one]

lemma is_connected_fin_one (A : Matrix (Fin 1) (Fin 1) ℝ) (d : Bool) :
    is_connected A d = true := by
  rw [is_connected]
  apply decide_eq_true
  rw [n_components, Finset.univ_unique, Finset.image_singleton,
    Finset.card_singleton]

lemma pns_matrix_fin_one (pnc : Matrix (Fin 1) (Fin 1) ℝ → ℝ)
    (A : Matrix (Fin 1) (Fin 1) ℝ) (d : Bool) :
    perron_network_sensitivity_matrix pnc A d 0 0 =
      (1 + if d then (1 : ℝ) else 0) * (1 / pnsStep) *
        |pnc (A + pnsStep • Matrix.stdBasisMatrix 0 0 1) - pnc A| := by
  rw [perron_network_sensitivity_matrix, symWriteFold_apply, max_self, min_self,
    if_pos (is_connected_fin_one A d)]

/-- Claim C1: the code computes `(1 + directed)` as the factor on both
sensitivity measures, i.e. the *directed* scores are doubled and the
undirected ones are not — the reverse of the documented behaviour.  At
the 2×2 zero matrix the raw per-entry Fréchet-derivative total is `1`,
yet the directed virtual scores are `[2, 2]` while the undirected ones
are `[1]`; the perron network sensitivity entry shows the same factor:
the raw forward difference is `1` but the directed entry is `2` and the
undirected entry `1`. -/
theorem sensitivity_directed_factor_two :
    (total_network_sensitivity (0 : Matrix (Fin 2) (Fin 2) ℝ) true).2.1 = [2, 2] ∧
    (total_network_sensitivity (0 : Matrix (Fin 2) (Fin 2) ℝ) false).2.1 = [1] ∧
    sumEntries (expm_frechet (0 : Matrix (Fin 2) (Fin 2) ℝ)
      (Matrix.stdBasisMatrix 0 1 1)) = 1 ∧
    perron_network_sensitivity_matrix sumEntries
      (allOnes : Matrix (Fin 1) (Fin 1) ℝ) true 0 0 = 2 ∧
    perron_network_sensitivity_matrix sumEntries
      (allOnes : Matrix (Fin 1) (Fin 1) ℝ) false 0 0 = 1 ∧
    (1 / pnsStep) *
      |sumEntries ((allOnes : Matrix (Fin 1) (Fin 1) ℝ) +
          pnsStep • Matrix.stdBasisMatrix 0 0 1) -
        sumEntries (allOnes : Matrix (Fin 1) (Fin 1) ℝ)| = 1 := by
  have hrm : rowMajorPairs 2 =
      [((0 : Fin 2), (0 : Fin 2)), (0, 1), (1, 0), (1, 1)] := by decide
  have htri : triuPairs 2 =
      [((0 : Fin 2), (0 : Fin 2)), (0, 1), (1, 1)] := by decide
  have hdiff : (1 / pnsStep) *
      |sumEntries ((allOnes : Matrix (Fin 1) (Fin 1) ℝ) +
          pnsStep • Matrix.stdBasisMatrix 0 0 1) -
        sumEntries (allOnes : Matrix (Fin 1) (Fin 1) ℝ)| = 1 := by
    rw [sumEntries_smul_stdBasis_add, add_sub_cancel_left,
      abs_of_pos (by rw [pnsStep]; norm_num)]
    rw [pnsStep]
    norm_num
  refine ⟨?_, ?_, ?_, ?_, ?_, hdiff⟩
  · simp only [total_network_sensitivity]
    rw [maskedVector, if_pos rfl, hrm]
    simp [List.filterMap_cons, tns_zero_matrix_entry]
    norm_num
  · simp only [total_network_sensitivity]
    rw [maskedVector]
    rw [if_neg (by simp : ¬ ((false : Bool) = true)), htri]
    simp [List.filterMap_cons, tns_zero_matrix_entry]
  · rw [expm_frechet_zero, sumEntries_stdBasisMatrix]
  · rw [pns_matrix_fin_one, if_pos rfl, mul_assoc, hdiff]
    norm_num
  · rw [pns_matrix_fin_one, if_neg (by simp : ¬ ((false : Bool) = true)),
      mul_assoc, hdiff]
    norm_num

/-- Embedding of `Tools.total_network_communicability`:
`np.sum(expm(adj_matrix))`, with the matrix exponential given entrywise
by its power series. -/
noncomputable def matrixExp {n : ℕ} (A : Matrix (Fin n) (Fin n) ℝ) :
    Matrix (Fin n) (Fin n) ℝ :=
  fun i j => tsum fun k => ((k.factorial : ℝ)⁻¹ • A ^ k) i j

noncomputable def total_network_communicability {n : ℕ}
    (A : Matrix (Fin n) (Fin n) ℝ) : ℝ :=
  sumEntries (matrixExp A)

lemma summable_expTerm_entry {n : ℕ} (A : Matrix (Fin n) (Fin n) ℝ)
    (i j : Fin n) :
    Summable fun k : ℕ => ((k.factorial : ℝ)⁻¹ • A ^ k) i j := by
  apply Summable.of_norm_bounded _
    ((Real.summable_pow_div_factorial (max (sumAbsEntries A) 1)).mul_left (n : ℝ))
  intro k
  have hfact : (0 : ℝ) < (k.factorial : ℝ) := Nat.cast_pos.mpr k.factorial_pos
  rw [Matrix.smul_apply, smul_eq_mul, Real.norm_eq_abs, abs_mul, abs_inv,
    abs_of_nonneg (le_of_lt hfact)]
  have h1 : |(A ^ k) i j| ≤ (n : ℝ) * (max (sumAbsEntries A) 1) ^ k :=
    le_trans (abs_entry_le_sumAbsEntries _ i j) (sumAbsEntries_pow_le A k)
  calc (k.factorial : ℝ)⁻¹ * |(A ^ k) i j|
      ≤ (k.factorial : ℝ)⁻¹ * ((n : ℝ) * (max (sumAbsEntries A) 1) ^ k) :=
        mul_le_mul_of_nonneg_left h1 (inv_nonneg.mpr (le_of_lt hfact))
    _ = (n : ℝ) * ((max (sumAbsEntries A) 1) ^ k / k.factorial) := by
        field_simp

lemma pow_entry_mono {n : ℕ} {A B : Matrix (Fin n) (Fin n) ℝ}
    (hB0 : ∀ i j, 0 ≤ B i j) (hBA : ∀ i j, B i j ≤ A i j) (k : ℕ) :
    ∀ i j, 0 ≤ (B ^ k) i j ∧ (B ^ k) i j ≤ (A ^ k) i j := by
  induction k with
  | zero =>
    intro i j
    rw [pow_zero, pow_zero]
    constructor
    · rw [Matrix.one_apply]
      split_ifs <;> norm_num
    · exact le_refl _
  | succ k ih =>
    intro i j
    rw [pow_succ, pow_succ, Matrix.mul_apply, Matrix.mul_apply]
    constructor
    · apply Finset.sum_nonneg
      intro s _
      exact mul_nonneg (ih i s).1 (hB0 s j)
    · apply Finset.sum_le_sum
      intro s _
      exact mul_le_mul (ih i s).2 (hBA s j) (hB0 s j)
        (le_trans (ih i s).1 (ih i s).2)

/-- Monotonicity of total network communicability under entrywise
decrease of a non-negative matrix: removing weight can only lower
`sum(expm(A))`. -/
lemma total_network_communicability_mono {n : ℕ}
    {A B : Matrix (Fin n) (Fin n) ℝ}
    (hB0 : ∀ i j, 0 ≤ B i j) (hBA : ∀ i j, B i j ≤ A i j) :
    total_network_communicability B ≤ total_network_communicability A := by
  rw [total_network_communicability, total_network_communicability,
    sumEntries, sumEntries]
  apply Finset.sum_le_sum
  intro p _
  apply tsum_le_tsum _ (summable_expTerm_entry B p.1 p.2)
    (summable_expTerm_entry A p.1 p.2)
  intro k
  rw [Matrix.smul_apply, Matrix.smul_apply, smul_eq_mul, smul_eq_mul]
  have hfact : (0 : ℝ) ≤ (k.factorial : ℝ)⁻¹ :=
    inv_nonneg.mpr (Nat.cast_nonneg _)
  exact mul_le_mul_of_nonneg_left ((pow_entry_mono hB0 hBA k p.1 p.2).2) hfact

/-- One iteration of the downdating branch of
`NetworkAnalysis.compare_measures`, for a single tracked measure.
The state is `(matrix, ranked edge list, component count,
disconnection events)`.  `order` selects the last (`"lowest"`) or first
(`"highest"`) ranked edge; any other value, or an empty list, is the
fatal error of the reference code (`none`).  The edge's weight is
downdated; if it reaches zero the edge is removed from the list and a
component-count change is recorded as the 1-based iteration index
`k + 1`.  When `greedy` is set the list is replaced by the supplied
re-ranking oracle (the call to `compute_centrality_values`). -/
def downdating_step {n : ℕ} {α : Type*} [LinearOrderedCommRing α]
    (directed : Bool) (order : String) (greedy : Bool)
    (recompute : Matrix (Fin n) (Fin n) α → List (Fin n × Fin n)) (k : ℕ)
    (s : Matrix (Fin n) (Fin n) α × List (Fin n × Fin n) × ℕ × List ℕ) :
    Option (Matrix (Fin n) (Fin n) α × List (Fin n × Fin n) × ℕ × List ℕ) :=
  match (if order = "lowest" then s.2.1.getLast?
    else if order = "highest" then s.2.1.head? else none) with
  | none => none
  | some e =>
    let A2 := downdate_network s.1 e directed
    if A2 e.1 e.2 = 0 then
      let ranked2 := if greedy then recompute A2 else (s.2.1).erase e
      let c := n_components A2 directed
      some (A2, ranked2, c,
        if s.2.2.1 ≠ c then s.2.2.2 ++ [k + 1] else s.2.2.2)
    else
      some (A2, if greedy then recompute A2 else s.2.1, s.2.2.1, s.2.2.2)

/-- The iteration loop `for k in range(number_of_iterations)` of
`compare_measures` (downdating, single measure). -/
def downdating_run {n : ℕ} {α : Type*} [LinearOrderedCommRing α]
    (directed : Bool) (order : String) (greedy : Bool)
    (recompute : Matrix (Fin n) (Fin n) α → List (Fin n × Fin n))
    (iters : ℕ)
    (s : Matrix (Fin n) (Fin n) α × List (Fin n × Fin n) × ℕ × List ℕ) :
    Option (Matrix (Fin n) (Fin n) α × List (Fin n × Fin n) × ℕ × List ℕ) :=
  (List.range iters).foldl
    (fun acc k => acc.bind (downdating_step directed order greedy recompute k))
    (some s)

/-- The iteration budget of `compare_measures`: `int(np.sum(adj))` when
the configured count is `0`, the configured count otherwise, and halved
(integer division) for undirected graphs.  (`int()` agrees with the
floor used here on the non-negative weight sums involved.) -/
def number_of_iterations {n : ℕ} {α : Type*} [LinearOrderedCommRing α]
    [FloorSemiring α] (adj_matrix : Matrix (Fin n) (Fin n) α)
    (input : ℕ) (directed : Bool) : ℕ :=
  (if input = 0 then ⌊∑ p : Fin n × Fin n, adj_matrix p.1 p.2⌋₊ else input) /
    (if directed then 1 else 2)

/-- The undirected unit-weight 4-cycle with edges
`(0,1), (1,2), (2,3), (3,0)`.  Integer entries are used so that the run
can be evaluated by the kernel; they embed into `ℝ` for the
communicability trace. -/
def cycleMatrix : Matrix (Fin 4) (Fin 4) ℤ :=
  fun p q => if (p.val + 1) % 4 = q.val ∨ (q.val + 1) % 4 = p.val then 1 else 0

/-- The ranked existing-edge list of the cycle (all four scores are
equal by symmetry, so this is the tie order of the edge list itself). -/
def cycleRanked : List (Fin 4 × Fin 4) := [(0, 1), (1, 2), (2, 3), (3, 0)]

/-- Initial engine state for the cycle run: matrix, ranked list, initial
component count, no disconnection events. -/
def cycleInit : Matrix (Fin 4) (Fin 4) ℤ × List (Fin 4 × Fin 4) × ℕ × List ℕ :=
  (cycleMatrix, cycleRanked, n_components cycleMatrix false, [])

/-- The matrix after `k` iterations of the non-greedy, `order=highest`,
undirected downdating run on the cycle. -/
def cycleRunMatrix (k : ℕ) : Matrix (Fin 4) (Fin 4) ℤ :=
  ((downdating_run false "highest" false (fun _ => []) k cycleInit).map
    fun s => s.1).getD 0

/-- Claim C3 is false as stated: the run does not remove 2 edges
(it removes 4: the auto-derived budget is `int(sum(A)) = 8`, halved
once for undirected to 4 iterations, and each iteration removes one
unit-weight edge). -/
theorem cycle_downdating_not_two_removed :
    ((downdating_run false "highest" false (fun _ => [])
        (number_of_iterations cycleMatrix 0 false) cycleInit).map
      fun s => cycleRanked.length - s.2.1.length) ≠ some 2 := by
  decide

/-- Claim C3 (amended): on the undirected unit-weight 4-cycle with
`order=highest`, `iterationCount=0` (auto-derived), non-greedy, the
engine runs `int(sum(A)) // 2 = 8 // 2 = 4` iterations and removes
exactly 4 edges (the spec's claimed count of 2 double-counts the
halving); the recorded total-network-communicability sequence is
non-increasing. -/
theorem cycle_downdating_run_result :
    number_of_iterations cycleMatrix 0 false = 4 ∧
    ((downdating_run false "highest" false (fun _ => [])
        (number_of_iterations cycleMatrix 0 false) cycleInit).map
      fun s => cycleRanked.length - s.2.1.length) = some 4 ∧
    ∀ k, k < 4 →
      total_network_communicability
          ((cycleRunMatrix (k + 1)).map fun x => (x : ℝ)) ≤
        total_network_communicability
          ((cycleRunMatrix k).map fun x => (x : ℝ)) := by
  have hall : ∀ k, k < 4 → ∀ i j, (0 : ℤ) ≤ cycleRunMatrix (k + 1) i j ∧
      cycleRunMatrix (k + 1) i j ≤ cycleRunMatrix k i j := by decide
  refine ⟨by decide, by decide, ?_⟩
  intro k hk
  apply total_network_communicability_mono
  · intro i j
    rw [Matrix.map_apply]
    exact_mod_cast (hall k hk i j).1
  · intro i j
    rw [Matrix.map_apply, Matrix.map_apply]
    exact_mod_cast (hall k hk i j).2

theorem cycle_downdating_run_result_witness :
    total_network_communicability
        ((cycleRunMatrix 1).map fun x => (x : ℝ)) ≤
      total_network_communicability
        ((cycleRunMatrix 0).map fun x => (x : ℝ)) :=
  cycle_downdating_run_result.2.2 0 (by norm_num)
